import Mathlib

/-!
Verification of the boost::filesystem::path specification against
`src/include/boost/filesystem/path.hpp`.

The native buffer `m_pathname` is modelled as a `List Char`.  Functions whose
bodies are inline in the header are translated from that source directly;
functions whose bodies live in the (absent) `path.cpp` translation unit are
modelled from the specification and carry a doc comment starting with
`Modelled from the spec:`.

The primary model instantiates the POSIX branch of the header
(`value_type = char`, `preferred_separator = '/'`); Windows-specific
definitions carry a `W` suffix and are used for the claims that mention
Windows behaviour.
-/

namespace BoostPath

/-- POSIX separator test: on POSIX the only separator character is `'/'`
(`path.hpp` uses `is_separator`, which on POSIX checks for slash only). -/
def isSep (c : Char) : Bool := c == '/'

/-- Negation of `isSep`, used by the root-name / component scanners. -/
def nonSep (c : Char) : Bool := !isSep c

/-- `path::preferred_separator` on POSIX (`path.hpp` line 77). -/
def preferredSeparator : Char := '/'

/-- Whether the buffer ends in a separator character
(`is_separator(*(m_pathname.end()-1))` in the source's helpers). -/
def endsInSep (s : List Char) : Bool :=
  match s.getLast? with
  | some c => isSep c
  | none => false

/-- Whether the buffer begins with a separator character. -/
def startsWithSep (s : List Char) : Bool :=
  match s with
  | c :: _ => isSep c
  | [] => false

/-- Modelled from the spec: body of `path::m_append_separator_if_needed`
(declared `path.hpp` lines 692-694, body in the absent path.cpp).  The
header documents its contract: "Returns: If separator is to be appended,
m_pathname.size() before append. Otherwise 0."; the spec adds "No separator
is inserted if the current buffer is empty, or if the current buffer already
ends in a separator, or if the new segment is empty."  Returns the updated
buffer together with the returned position. -/
def m_append_separator_if_needed (s : List Char) : List Char × Nat :=
  if s.isEmpty || endsInSep s then (s, 0)
  else (s ++ [preferredSeparator], s.length)

/-- Modelled from the spec: body of `path::m_erase_redundant_separator`
(declared `path.hpp` line 696, body in the absent path.cpp).  The spec says an
append "collapses a redundant separator if the new segment itself begins with
one": if the character following the inserted separator at `sepPos` is itself
a separator, the inserted separator at `sepPos` is erased. -/
def m_erase_redundant_separator (s : List Char) (sepPos : Nat) : List Char :=
  match s.get? (sepPos + 1) with
  | some c => if isSep c then s.take sepPos ++ s.drop (sepPos + 1) else s
  | none => s

/-- The append pipeline of `path::append` (`path.hpp` lines 866-876, inline in
the header): if the source is empty return unchanged; otherwise remember
`sep_pos = m_append_separator_if_needed()`, write the segment, and if
`sep_pos` is non-zero call `m_erase_redundant_separator(sep_pos)`. -/
def appendPath (buf seg : List Char) : List Char :=
  if seg.isEmpty then buf
  else
    let sp := m_append_separator_if_needed buf
    let b2 := sp.1 ++ seg
    if sp.2 ≠ 0 then m_erase_redundant_separator b2 sp.2 else b2

/-! ## Decomposition engine

The bodies of `root_name`, `root_directory`, `relative_path`, `root_path`,
`filename`, `stem` and `extension` (declared in `path.hpp` lines 587-595) live
in the absent path.cpp, so they are modelled from the spec (section 4.3). -/

/-- Modelled from the spec: length of the root-name prefix (spec 4.3 step 1).
On POSIX "an analogous double-leading-separator network-name form (`//host`)
is recognized as non-empty root-name while a single leading separator is
not": two leading separators followed by a non-separator start a root-name
that extends over the maximal run of non-separator characters. -/
def rootNameLen (s : List Char) : Nat :=
  match s with
  | a :: b :: c :: rest =>
    if isSep a && isSep b && nonSep c then 3 + (rest.takeWhile nonSep).length
    else 0
  | _ => 0

/-- Modelled from the spec: `path::root_name` (spec 4.3 step 1). -/
def rootName (s : List Char) : List Char := s.take (rootNameLen s)

/-- The buffer after the root-name prefix. -/
def afterRootName (s : List Char) : List Char := s.drop (rootNameLen s)

/-- Length of the separator run immediately following the root-name. -/
def rootDirRun (s : List Char) : Nat := ((afterRootName s).takeWhile isSep).length

/-- Modelled from the spec: `path::root_directory` (spec 4.3 step 2): "a
single run of one-or-more separator characters at that position denotes the
root-directory element (stored as exactly one canonical separator, regardless
of how many native characters were consumed); absent if no separator at that
position." -/
def rootDirectory (s : List Char) : List Char :=
  if rootDirRun s = 0 then [] else [preferredSeparator]

/-- Modelled from the spec: native buffer of `path::relative_path`
(spec 4.3 step 3): "everything after root-name + root-directory". -/
def relativePart (s : List Char) : List Char :=
  (afterRootName s).dropWhile isSep

/-- Modelled from the spec: `path::root_path` — root-name concatenated with
root-directory (`path.hpp` line 587 declaration; spec sections 4.3 and 8). -/
def rootPath (s : List Char) : List Char := rootName s ++ rootDirectory s

/-- Modelled from the spec: `path::filename` (spec 4.3 step 4): "if the
buffer is empty, filename is empty; if the buffer ends in a separator,
filename is empty; otherwise filename is the substring after the last
separator (or the whole relative-path if none)". -/
def filename (s : List Char) : List Char :=
  if s.isEmpty then []
  else if endsInSep s then []
  else (s.reverse.takeWhile nonSep).reverse

/-- `path::has_filename` as written inline in the source
(`path.hpp` line 605): `return !m_pathname.empty();`. -/
def has_filename (s : List Char) : Bool := !s.isEmpty

/-- Modelled from the spec: index of the last qualifying dot of a filename
(spec 4.3 step 6): "the last `.` character that is not the first character of
the filename and is not part of an all-dot name"; `none` when there is no
qualifying dot. -/
def qualifyingDot (f : List Char) : Option Nat :=
  if f.all (fun c => c == '.') then none
  else
    let tl := f.reverse.takeWhile (fun c => !(c == '.'))
    if tl.length = f.length then none
    else
      let k := f.length - tl.length - 1
      if k = 0 then none else some k

/-- Modelled from the spec: extension of a filename (spec 4.3 step 6):
"extension = from that dot to the end (including the dot)", empty when no
qualifying dot exists. -/
def extensionOfName (f : List Char) : List Char :=
  match qualifyingDot f with
  | none => []
  | some k => f.drop k

/-- Modelled from the spec: stem of a filename (spec 4.3 step 6):
"stem = filename up to that dot", the whole filename when no qualifying dot
exists. -/
def stemOfName (f : List Char) : List Char :=
  match qualifyingDot f with
  | none => f
  | some k => f.take k

/-- Modelled from the spec: `path::extension` (declared `path.hpp` line 595). -/
def extension (s : List Char) : List Char := extensionOfName (filename s)

/-- Modelled from the spec: `path::stem` (declared `path.hpp` line 594). -/
def stem (s : List Char) : List Char := stemOfName (filename s)

/-! Query predicates written inline in the source (`path.hpp` lines 599-616). -/

/-- `path::has_root_directory` (`path.hpp` line 602):
`return !root_directory().empty();`. -/
def has_root_directory (s : List Char) : Bool := !(rootDirectory s).isEmpty

/-- `path::has_root_name` (`path.hpp` line 601):
`return !root_name().empty();`. -/
def has_root_name (s : List Char) : Bool := !(rootName s).isEmpty

/-- `path::is_absolute` on POSIX (`path.hpp` lines 608-615, `#else` branch):
`return has_root_directory();`. -/
def is_absolute_posix (s : List Char) : Bool := has_root_directory s

/-- `path::is_relative` on POSIX (`path.hpp` line 616):
`return !is_absolute();`. -/
def is_relative_posix (s : List Char) : Bool := !is_absolute_posix s

/-! ## Windows variant of the decomposition (for the claims that mention
Windows behaviour). -/

/-- Windows separator test: both slash and backslash are separators
(`path.hpp` Windows branch). -/
def isSepW (c : Char) : Bool := c == '/' || c == '\\'

/-- Negation of `isSepW`. -/
def nonSepW (c : Char) : Bool := !isSepW c

/-- `path::preferred_separator` on Windows (`path.hpp` line 74). -/
def preferredSeparatorW : Char := '\\'

/-- Modelled from the spec: length of the Windows root-name prefix
(spec 4.3 step 1): "on Windows, a drive letter + colon (`C:`) or a UNC-style
double-separator-prefixed host name (`\\server`)". -/
def rootNameLenW (s : List Char) : Nat :=
  match s with
  | a :: b :: rest =>
    if a.isAlpha && b == ':' then 2
    else
      match rest with
      | c :: t =>
        if isSepW a && isSepW b && nonSepW c then 3 + (t.takeWhile nonSepW).length
        else 0
      | [] => 0
  | _ => 0

/-- Modelled from the spec: `path::root_name` on Windows. -/
def rootNameW (s : List Char) : List Char := s.take (rootNameLenW s)

/-- Length of the separator run immediately following the Windows root-name. -/
def rootDirRunW (s : List Char) : Nat :=
  ((s.drop (rootNameLenW s)).takeWhile isSepW).length

/-- Modelled from the spec: `path::root_directory` on Windows, stored as one
canonical separator (spec 4.3 step 2). -/
def rootDirectoryW (s : List Char) : List Char :=
  if rootDirRunW s = 0 then [] else [preferredSeparatorW]

/-- `path::has_root_name` on Windows (`path.hpp` line 601). -/
def has_root_nameW (s : List Char) : Bool := !(rootNameW s).isEmpty

/-- `path::has_root_directory` on Windows (`path.hpp` line 602). -/
def has_root_directoryW (s : List Char) : Bool := !(rootDirectoryW s).isEmpty

/-- `path::is_absolute` on Windows (`path.hpp` lines 608-615, the
`BOOST_WINDOWS_API` branch): `return has_root_name() && has_root_directory();`. -/
def is_absolute_windows (s : List Char) : Bool :=
  has_root_nameW s && has_root_directoryW s

/-- `path::is_relative` on Windows (`path.hpp` line 616). -/
def is_relative_windows (s : List Char) : Bool := !is_absolute_windows s

/-! ## Element iterator and comparison

The iterator increment/decrement bodies and `path::compare` live in the
absent path.cpp; the element sequence and the comparison are modelled from
the spec (sections 4.4 and 4.5). -/

/-- Modelled from the spec: the non-empty components of the relative part,
"split on runs of separators (empty components from redundant separators are
skipped)" (spec 4.4). -/
def relComponents (s : List Char) : List (List Char) :=
  ((relativePart s).splitOnP isSep).filter (fun c => !c.isEmpty)

/-- Modelled from the spec: the relative-path portion of the iterator's
element sequence, including the synthetic final `"."` element: "if the
relative-path is non-empty and ends in a separator, an implicit final `.`
element is produced" (spec 4.4). -/
def relElements (s : List Char) : List (List Char) :=
  if !(relativePart s).isEmpty && endsInSep (relativePart s) then
    relComponents s ++ [['.']]
  else relComponents s

/-- Modelled from the spec: the full sequence of elements yielded by
iterating from `begin()` to `end()` (spec 4.4): root-name if non-empty, then
root-directory as a single separator element if non-empty, then the
relative components. -/
def pathElements (s : List Char) : List (List Char) :=
  (if (rootName s).isEmpty then [] else [rootName s]) ++
  (if (rootDirectory s).isEmpty then [] else [rootDirectory s]) ++
  relElements s

/-- Lexicographic comparison of two character sequences by native character
code, the primitive used by `path::compare` (spec 4.5). -/
def cmpChars : List Char → List Char → Ordering
  | [], [] => Ordering.eq
  | [], _ :: _ => Ordering.lt
  | _ :: _, [] => Ordering.gt
  | a :: as, b :: bs =>
    if a = b then cmpChars as bs
    else if a.toNat < b.toNat then Ordering.lt else Ordering.gt

/-- Lexicographic comparison of two element sequences, element-wise via
`cmpChars`, "fewer elements sorting before more elements with a shared
prefix" (spec 4.5). -/
def cmpElems : List (List Char) → List (List Char) → Ordering
  | [], [] => Ordering.eq
  | [], _ :: _ => Ordering.lt
  | _ :: _, [] => Ordering.gt
  | a :: as, b :: bs =>
    match cmpChars a b with
    | Ordering.eq => cmpElems as bs
    | o => o

/-- Comparison of root-directory presence: "absent < present" (spec 4.5). -/
def cmpPresence : Bool → Bool → Ordering
  | false, false => Ordering.eq
  | false, true => Ordering.lt
  | true, false => Ordering.gt
  | true, true => Ordering.eq

/-- Modelled from the spec: `path::compare` (declared `path.hpp` line 581,
body in the absent path.cpp; spec 4.5): "compare root-name lexicographically
by native character code; if equal, compare root-directory presence/absence
(absent < present); if equal, compare each relative element pairwise by
native character code in iteration order". -/
def pathCompare (p q : List Char) : Ordering :=
  (cmpChars (rootName p) (rootName q)).then
    ((cmpPresence (has_root_directory p) (has_root_directory q)).then
      (cmpElems (relElements p) (relElements q)))

/-! ## Hashing

`hash_value` is written inline in the source (`path.hpp` lines 796-806).
The `boost::hash_combine`/`hash_range` helpers it calls belong to Boost.Hash
(an external collaborator), modelled here by the standard Boost mixing
function on 64-bit `size_t`. -/

/-- The Boost `hash_combine` mixing step for a 64-bit `size_t`:
`seed ^= k + 0x9e3779b9 + (seed << 6) + (seed >> 2)`, arithmetic modulo
`2^64` (external collaborator of `hash_value`). -/
def hashCombine (seed k : Nat) : Nat :=
  (seed ^^^ ((k + 0x9e3779b9 + seed * 64 + seed / 4) % 18446744073709551616))
    % 18446744073709551616

/-- The Boost `hash_range` fold used by the POSIX branch of `hash_value`:
seed 0 combined with each character value in order. -/
def hashRange (l : List Char) : Nat :=
  l.foldl (fun seed c => hashCombine seed c.toNat) 0

/-- The NUL character terminating `c_str()` traversal. -/
def nullChar : Char := '\x00'

/-- `hash_value` on POSIX (`path.hpp` lines 803-805):
`return hash_range(x.native().begin(), x.native().end());` — the whole
native buffer including characters after an embedded NUL. -/
def hash_value_posix (p : List Char) : Nat := hashRange p

/-- `hash_value` on Windows (`path.hpp` lines 798-802):
`for(it = x.c_str(); *it; ++it) hash_combine(seed, *it == '/' ? L'\\' : *it);`
— traversal stops at the first NUL character of the buffer, and slashes are
normalized to backslashes before combining. -/
def hash_value_windows (p : List Char) : Nat :=
  (p.takeWhile (fun c => c != nullChar)).foldl
    (fun seed c => hashCombine seed (if c = '/' then '\\'.toNat else c.toNat)) 0

/-! ## Iterator identity (C10)

`path::iterator::equal` is written inline in the source (`path.hpp` lines
745-748): `return m_path_ptr == rhs.m_path_ptr && m_pos == rhs.m_pos;`.
The C++ pointer `m_path_ptr` compares object identity, modelled by a
numeric object identifier carried by each path object. -/

/-- A path object as it lives in memory: an object identity (standing for
the object's address) together with its native buffer. -/
structure PathObj where
  oid : Nat
  buf : List Char

/-- The state of `path::iterator` relevant to `equal`: the owning path's
identity (`m_path_ptr`) and the buffer offset (`m_pos`). -/
structure PathIter where
  pathPtr : Nat
  pos : Nat

/-- `path::iterator::equal` (`path.hpp` lines 745-748): pointer identity of
the owning path, then the position. -/
def iterEqual (i j : PathIter) : Bool :=
  i.pathPtr == j.pathPtr && i.pos == j.pos

/-- `path::begin()` yields an iterator owned by this path object whose
`m_pos` is the start of the buffer (offset 0). -/
def beginIter (o : PathObj) : PathIter := ⟨o.oid, 0⟩

/-! Helper lemmas about lists used throughout. -/

lemma take_len_append (a b : List Char) : (a ++ b).take a.length = a := by
  induction a with
  | nil => simp
  | cons x xs ih => simp [ih]

lemma drop_len_append (a b : List Char) : (a ++ b).drop a.length = b := by
  induction a with
  | nil => simp
  | cons x xs ih => simp [ih]

lemma get?_len_append (a b : List Char) : (a ++ b).get? a.length = b.get? 0 := by
  induction a with
  | nil => rfl
  | cons x xs ih => simpa using ih

lemma isEmpty_false_of_ne_nil {s : List Char} (h : s ≠ []) : s.isEmpty = false := by
  cases s with
  | nil => exact absurd rfl h
  | cons x xs => rfl

/-! Characterization lemmas for `appendPath`, shared by the theorems for the
append-related claims. -/

lemma appendPath_nil_buf (seg : List Char) : appendPath [] seg = [] ++ seg := by
  cases seg with
  | nil => rfl
  | cons c rest => rfl

lemma appendPath_endsSep (buf seg : List Char) (h : endsInSep buf = true) :
    appendPath buf seg = buf ++ seg := by
  cases hs : seg.isEmpty with
  | true =>
    have : seg = [] := by
      cases seg with
      | nil => rfl
      | cons c r => simp [List.isEmpty] at hs
    subst this
    simp [appendPath]
  | false =>
    unfold appendPath
    rw [hs]
    simp only [Bool.false_eq_true, if_false]
    unfold m_append_separator_if_needed
    rw [h]
    simp

lemma appendPath_nil_seg (buf : List Char) : appendPath buf [] = buf := by
  simp [appendPath]

lemma appendPath_sep_inserted (buf : List Char) (c : Char) (rest : List Char)
    (hb : buf ≠ []) (he : endsInSep buf = false) (hc : isSep c = false) :
    appendPath buf (c :: rest) = buf ++ preferredSeparator :: (c :: rest) := by
  unfold appendPath
  simp only [List.isEmpty_cons, Bool.false_eq_true, if_false]
  unfold m_append_separator_if_needed
  rw [isEmpty_false_of_ne_nil hb, he]
  simp only [Bool.or_self, Bool.false_eq_true, if_false]
  have hlen : buf.length ≠ 0 := by
    cases buf with
    | nil => exact absurd rfl hb
    | cons x xs => simp
  simp only [hlen, ne_eq, not_false_iff, if_true]
  unfold m_erase_redundant_separator
  have hassoc : buf ++ [preferredSeparator] ++ c :: rest
      = (buf ++ [preferredSeparator]) ++ c :: rest := by simp
  have hlen2 : (buf ++ [preferredSeparator]).length = buf.length + 1 := by simp
  have hget : (buf ++ [preferredSeparator] ++ c :: rest).get? (buf.length + 1)
      = some c := by
    rw [hassoc, ← hlen2, get?_len_append]
    rfl
  rw [hget]
  simp [hc]

lemma appendPath_sep_collapsed (buf : List Char) (c : Char) (rest : List Char)
    (hb : buf ≠ []) (he : endsInSep buf = false) (hc : isSep c = true) :
    appendPath buf (c :: rest) = buf ++ c :: rest := by
  unfold appendPath
  simp only [List.isEmpty_cons, Bool.false_eq_true, if_false]
  unfold m_append_separator_if_needed
  rw [isEmpty_false_of_ne_nil hb, he]
  simp only [Bool.or_self, Bool.false_eq_true, if_false]
  have hlen : buf.length ≠ 0 := by
    cases buf with
    | nil => exact absurd rfl hb
    | cons x xs => simp
  simp only [hlen, ne_eq, not_false_iff, if_true]
  unfold m_erase_redundant_separator
  have hassoc : buf ++ [preferredSeparator] ++ c :: rest
      = (buf ++ [preferredSeparator]) ++ c :: rest := by simp
  have hlen2 : (buf ++ [preferredSeparator]).length = buf.length + 1 := by simp
  have hget : (buf ++ [preferredSeparator] ++ c :: rest).get? (buf.length + 1)
      = some c := by
    rw [hassoc, ← hlen2, get?_len_append]
    rfl
  rw [hget]
  simp only [hc, if_true]
  have htake : (buf ++ [preferredSeparator] ++ c :: rest).take buf.length = buf := by
    rw [List.append_assoc]
    exact take_len_append buf _
  have hdrop : (buf ++ [preferredSeparator] ++ c :: rest).drop (buf.length + 1)
      = c :: rest := by
    rw [hassoc, ← hlen2]
    exact drop_len_append _ _
  rw [htake, hdrop]

/-! Elementary facts about `takeWhile`/`dropWhile` used to reason about the
decomposition parse. -/

lemma takeWhile_len_take (P : Char → Bool) (t : List Char) :
    t.take (t.takeWhile P).length = t.takeWhile P := by
  induction t with
  | nil => rfl
  | cons c r ih =>
    cases h : P c with
    | true => simp [List.takeWhile_cons, h, ih]
    | false => simp [List.takeWhile_cons, h]

lemma dropWhile_len_drop (P : Char → Bool) (t : List Char) :
    t.drop (t.takeWhile P).length = t.dropWhile P := by
  induction t with
  | nil => rfl
  | cons c r ih =>
    cases h : P c with
    | true => simp [List.takeWhile_cons, List.dropWhile_cons, h, ih]
    | false => simp [List.takeWhile_cons, List.dropWhile_cons, h]

lemma all_takeWhile (P : Char → Bool) (t : List Char) :
    ∀ x ∈ t.takeWhile P, P x = true := by
  induction t with
  | nil => intro x hx; simp at hx
  | cons c r ih =>
    intro x hx
    cases h : P c with
    | true =>
      rw [List.takeWhile_cons_of_pos h] at hx
      rcases List.mem_cons.mp hx with rfl | hx
      · exact h
      · exact ih x hx
    | false =>
      rw [List.takeWhile_cons_of_neg (by simp [h])] at hx
      simp at hx

lemma takeWhile_all_self (P : Char → Bool) (u : List Char)
    (h : ∀ x ∈ u, P x = true) : u.takeWhile P = u := by
  induction u with
  | nil => rfl
  | cons c r ih =>
    rw [List.takeWhile_cons_of_pos (h c (List.mem_cons_self c r))]
    rw [ih (fun x hx => h x (List.mem_cons_of_mem c hx))]

lemma takeWhile_append_all (P : Char → Bool) (u v : List Char)
    (h : ∀ x ∈ u, P x = true) : (u ++ v).takeWhile P = u ++ v.takeWhile P := by
  induction u with
  | nil => rfl
  | cons c r ih =>
    rw [List.cons_append, List.takeWhile_cons_of_pos (h c (List.mem_cons_self c r))]
    rw [ih (fun x hx => h x (List.mem_cons_of_mem c hx))]
    rfl

lemma dropWhile_head_false (P : Char → Bool) (t : List Char) (c : Char)
    (r : List Char) (h : t.dropWhile P = c :: r) : P c = false := by
  induction t with
  | nil => simp at h
  | cons d ds ih =>
    cases hP : P d with
    | true =>
      rw [List.dropWhile_cons_of_pos hP] at h
      exact ih h
    | false =>
      rw [List.dropWhile_cons_of_neg (by simp [hP])] at h
      injection h with h1 _
      subst h1
      exact hP

lemma dropWhile_eq_self_of_takeWhile_nil (P : Char → Bool) (t : List Char)
    (h : t.takeWhile P = []) : t.dropWhile P = t := by
  cases t with
  | nil => rfl
  | cons c r =>
    cases hP : P c with
    | true => rw [List.takeWhile_cons_of_pos hP] at h; simp at h
    | false => exact List.dropWhile_cons_of_neg (by simp [hP])

lemma takeWhile_dropWhile_nil (P : Char → Bool) (t : List Char) :
    (t.dropWhile P).takeWhile P = [] := by
  cases h : t.dropWhile P with
  | nil => rfl
  | cons c r =>
    exact List.takeWhile_cons_of_neg
      (by simp [dropWhile_head_false P t c r h])

lemma take_three_plus (m : Nat) (a b c : Char) (t : List Char) :
    (a :: b :: c :: t).take (3 + m) = a :: b :: c :: t.take m := by
  rw [Nat.add_comm]
  rfl

lemma drop_three_plus (m : Nat) (a b c : Char) (t : List Char) :
    (a :: b :: c :: t).drop (3 + m) = t.drop m := by
  rw [Nat.add_comm]
  rfl

/-! Structure of the root-name scan. -/

lemma rootName_shape (p : List Char) :
    rootNameLen p = 0 ∨
    ∃ c t, p = '/' :: '/' :: c :: t ∧ nonSep c = true ∧
      rootName p = '/' :: '/' :: c :: t.takeWhile nonSep ∧
      afterRootName p = t.dropWhile nonSep := by
  rcases p with _ | ⟨a, _ | ⟨b, _ | ⟨c, t⟩⟩⟩
  · exact Or.inl rfl
  · exact Or.inl rfl
  · exact Or.inl rfl
  · by_cases h : (isSep a && isSep b && nonSep c) = true
    · have h' := h
      simp only [Bool.and_eq_true] at h'
      obtain ⟨⟨ha, hb⟩, hc⟩ := h'
      have ha' : a = '/' := by simpa [isSep] using ha
      have hb' : b = '/' := by simpa [isSep] using hb
      subst ha'
      subst hb'
      have hlen : rootNameLen ('/' :: '/' :: c :: t)
          = 3 + (t.takeWhile nonSep).length := by
        unfold rootNameLen
        exact if_pos h
      right
      refine ⟨c, t, rfl, hc, ?_, ?_⟩
      · unfold rootName
        rw [hlen, take_three_plus, takeWhile_len_take]
      · unfold afterRootName
        rw [hlen, drop_three_plus, dropWhile_len_drop]
    · exact Or.inl (by simp [rootNameLen, h])

lemma rootNameLen_sep_cons (w : List Char) (hw : w.takeWhile isSep = []) :
    rootNameLen ('/' :: w) = 0 := by
  cases w with
  | nil => rfl
  | cons d ds =>
    have hd : isSep d = false := by
      cases hP : isSep d with
      | false => rfl
      | true => rw [List.takeWhile_cons_of_pos hP] at hw; simp at hw
    cases ds with
    | nil => rfl
    | cons e es => simp [rootNameLen, hd]

/-- The three decomposition keys of the reconstruction
`root_path(p) + relative_path(p)` agree with those of `p` itself. -/
lemma reconstruct_parse (p : List Char) :
    rootName (rootPath p ++ relativePart p) = rootName p ∧
    has_root_directory (rootPath p ++ relativePart p) = has_root_directory p ∧
    relativePart (rootPath p ++ relativePart p) = relativePart p := by
  rcases rootName_shape p with h0 | ⟨c, t, rfl, hc, hrn, harn⟩
  · have hrn : rootName p = [] := by simp [rootName, h0]
    have harn : afterRootName p = p := by simp [afterRootName, h0]
    by_cases hr : rootDirRun p = 0
    · have htw : p.takeWhile isSep = [] := by
        have h' := hr
        unfold rootDirRun at h'
        rw [harn] at h'
        exact List.length_eq_zero.mp h'
      have hrel : relativePart p = p := by
        unfold relativePart
        rw [harn]
        exact dropWhile_eq_self_of_takeWhile_nil _ _ htw
      have hrd : rootDirectory p = [] := by simp [rootDirectory, hr]
      have hre : rootPath p ++ relativePart p = p := by
        unfold rootPath
        rw [hrn, hrd, hrel]
        simp
      rw [hre]
      exact ⟨rfl, rfl, rfl⟩
    · have hrelp : relativePart p = p.dropWhile isSep := by
        unfold relativePart
        rw [harn]
      have hwt : (p.dropWhile isSep).takeWhile isSep = [] :=
        takeWhile_dropWhile_nil isSep p
      have hrd : rootDirectory p = ['/'] := by
        simp [rootDirectory, hr, preferredSeparator]
      have hre : rootPath p ++ relativePart p = '/' :: p.dropWhile isSep := by
        unfold rootPath
        rw [hrn, hrd, hrelp]
        simp
      rw [hre]
      have hlen0 : rootNameLen ('/' :: p.dropWhile isSep) = 0 :=
        rootNameLen_sep_cons _ hwt
      refine ⟨?_, ?_, ?_⟩
      · rw [hrn]
        simp [rootName, hlen0]
      · have hrun1 : rootDirRun ('/' :: p.dropWhile isSep) = 1 := by
          unfold rootDirRun afterRootName
          rw [hlen0, List.drop_zero, List.takeWhile_cons_of_pos (by decide), hwt]
          rfl
        simp [has_root_directory, rootDirectory, hrun1, hr]
      · rw [hrelp]
        unfold relativePart afterRootName
        rw [hlen0, List.drop_zero, List.dropWhile_cons_of_pos (by decide)]
        exact dropWhile_eq_self_of_takeWhile_nil _ _ hwt
  · have hu : ∀ x ∈ t.takeWhile nonSep, nonSep x = true := all_takeWhile nonSep t
    have hcond : (isSep '/' && isSep '/' && nonSep c) = true := by simp [isSep, hc]
    by_cases hr : rootDirRun ('/' :: '/' :: c :: t) = 0
    · have hv : (t.dropWhile nonSep).takeWhile isSep = [] := by
        have h' := hr
        unfold rootDirRun at h'
        rw [harn] at h'
        exact List.length_eq_zero.mp h'
      have hvnil : t.dropWhile nonSep = [] := by
        cases hveq : t.dropWhile nonSep with
        | nil => rfl
        | cons d ds =>
          have hd : nonSep d = false := dropWhile_head_false nonSep t d ds hveq
          have hds : isSep d = true := by
            unfold nonSep at hd
            simpa using hd
          rw [hveq, List.takeWhile_cons_of_pos hds] at hv
          simp at hv
      have hrel : relativePart ('/' :: '/' :: c :: t) = [] := by
        unfold relativePart
        rw [harn, hvnil]
        rfl
      have hrd : rootDirectory ('/' :: '/' :: c :: t) = [] := by
        simp [rootDirectory, hr]
      have hre : rootPath ('/' :: '/' :: c :: t) ++ relativePart ('/' :: '/' :: c :: t)
          = '/' :: '/' :: c :: t.takeWhile nonSep := by
        unfold rootPath
        rw [hrn, hrd, hrel]
        simp
      rw [hre]
      have hlen : rootNameLen ('/' :: '/' :: c :: t.takeWhile nonSep)
          = 3 + (t.takeWhile nonSep).length := by
        have h1 : rootNameLen ('/' :: '/' :: c :: t.takeWhile nonSep)
            = 3 + ((t.takeWhile nonSep).takeWhile nonSep).length := if_pos hcond
        rw [takeWhile_all_self nonSep _ hu] at h1
        exact h1
      refine ⟨?_, ?_, ?_⟩
      · rw [hrn]
        unfold rootName
        rw [hlen, take_three_plus, List.take_length]
      · have hrun0 : rootDirRun ('/' :: '/' :: c :: t.takeWhile nonSep) = 0 := by
          unfold rootDirRun afterRootName
          rw [hlen, drop_three_plus, List.drop_length]
          rfl
        simp [has_root_directory, rootDirectory, hrun0, hr]
      · rw [hrel]
        unfold relativePart afterRootName
        rw [hlen, drop_three_plus, List.drop_length]
        rfl
    · have hrelp : relativePart ('/' :: '/' :: c :: t)
          = (t.dropWhile nonSep).dropWhile isSep := by
        unfold relativePart
        rw [harn]
      have hwt : ((t.dropWhile nonSep).dropWhile isSep).takeWhile isSep = [] :=
        takeWhile_dropWhile_nil isSep (t.dropWhile nonSep)
      have hrd : rootDirectory ('/' :: '/' :: c :: t) = ['/'] := by
        simp [rootDirectory, hr, preferredSeparator]
      have hre : rootPath ('/' :: '/' :: c :: t) ++ relativePart ('/' :: '/' :: c :: t)
          = '/' :: '/' :: c ::
            (t.takeWhile nonSep ++ '/' :: (t.dropWhile nonSep).dropWhile isSep) := by
        unfold rootPath
        rw [hrn, hrd, hrelp]
        simp
      rw [hre]
      have htw : (t.takeWhile nonSep ++
            '/' :: (t.dropWhile nonSep).dropWhile isSep).takeWhile nonSep
          = t.takeWhile nonSep := by
        rw [takeWhile_append_all nonSep _ _ hu,
          List.takeWhile_cons_of_neg (by decide)]
        simp
      have hlen : rootNameLen ('/' :: '/' :: c ::
            (t.takeWhile nonSep ++ '/' :: (t.dropWhile nonSep).dropWhile isSep))
          = 3 + (t.takeWhile nonSep).length := by
        have h1 : rootNameLen ('/' :: '/' :: c ::
              (t.takeWhile nonSep ++ '/' :: (t.dropWhile nonSep).dropWhile isSep))
            = 3 + ((t.takeWhile nonSep ++
                '/' :: (t.dropWhile nonSep).dropWhile isSep).takeWhile nonSep).length :=
          if_pos hcond
        rw [htw] at h1
        exact h1
      refine ⟨?_, ?_, ?_⟩
      · rw [hrn]
        unfold rootName
        rw [hlen, take_three_plus, take_len_append]
      · have hrun1 : rootDirRun ('/' :: '/' :: c ::
              (t.takeWhile nonSep ++ '/' :: (t.dropWhile nonSep).dropWhile isSep))
            = 1 := by
          unfold rootDirRun afterRootName
          rw [hlen, drop_three_plus, drop_len_append,
            List.takeWhile_cons_of_pos (by decide), hwt]
          rfl
        simp [has_root_directory, rootDirectory, hrun1, hr]
      · rw [hrelp]
        unfold relativePart afterRootName
        rw [hlen, drop_three_plus, drop_len_append,
          List.dropWhile_cons_of_pos (by decide)]
        exact dropWhile_eq_self_of_takeWhile_nil _ _ hwt

/-! Reflexivity of the comparison primitives. -/

lemma cmpChars_refl (a : List Char) : cmpChars a a = Ordering.eq := by
  induction a with
  | nil => rfl
  | cons x xs ih => simp [cmpChars, ih]

lemma cmpPresence_refl (b : Bool) : cmpPresence b b = Ordering.eq := by
  cases b <;> rfl

lemma cmpElems_refl (l : List (List Char)) : cmpElems l l = Ordering.eq := by
  induction l with
  | nil => rfl
  | cons a as ih => simp [cmpElems, cmpChars_refl, ih]

lemma stemOfName_append_extensionOfName (f : List Char) :
    stemOfName f ++ extensionOfName f = f := by
  unfold stemOfName extensionOfName
  cases h : qualifyingDot f with
  | none => simp
  | some k => simp [List.take_append_drop]

/-! ## Claim theorems -/

/-- C1 counterexample: the claim states that `has_filename()` is false for
the path constructed from `"/a/b/"`, but the source's
`has_filename() { return !m_pathname.empty(); }` returns true there. -/
theorem c1_counterexample : ¬ (has_filename ['/', 'a', '/', 'b', '/'] = false) := by
  decide

/-- C1 (amended): for every path whose native buffer ends in a separator and
for the empty path, `filename()` returns the empty path; however
`has_filename()` is `!m_pathname.empty()`, so it is false exactly for the
empty path and true for any non-empty buffer, including `"/a/b/"`. -/
theorem c1_amended (p : List Char) :
    ((p = [] ∨ endsInSep p = true) → filename p = []) ∧
    (has_filename p = false ↔ p = []) := by
  constructor
  · rintro (rfl | h)
    · rfl
    · cases hp : p.isEmpty with
      | true => simp [filename, hp]
      | false => simp [filename, hp, h]
  · simp [has_filename]

/-- C1 witness: the amended theorem applied to the concrete path `"/a/b/"`. -/
theorem c1_witness : filename ['/', 'a', '/', 'b', '/'] = [] :=
  (c1_amended ['/', 'a', '/', 'b', '/']).1 (Or.inr (by decide))

/-- C2 counterexample: appending `"/b"` to `"/a/"` yields `"/a//b"`, not the
`"/a/b"` stated by the claim — the collapse step only runs when
`m_append_separator_if_needed` actually inserted a separator
(`if (sep_pos)` in `path::append`, `path.hpp` lines 873-874), and no
separator is inserted when the buffer already ends in one. -/
theorem c2_counterexample :
    appendPath ['/', 'a', '/'] ['/', 'b'] = ['/', 'a', '/', '/', 'b'] ∧
    appendPath ['/', 'a', '/'] ['/', 'b'] ≠ ['/', 'a', '/', 'b'] := by
  constructor
  · decide
  · decide

/-- C2 (amended): for every append whose segment begins with a separator the
result is the plain concatenation of buffer and segment: the segment's
leading separator is collapsed only against a separator the operation itself
inserted (so appending `"/b"` to `"/a"` yields `"/a/b"`), while a separator
already ending the buffer is left alone, so appending `"/b"` to `"/a/"`
yields `"/a//b"`. -/
theorem c2_amended (buf seg : List Char) (h : startsWithSep seg = true) :
    appendPath buf seg = buf ++ seg := by
  cases seg with
  | nil => simp [startsWithSep] at h
  | cons c rest =>
    have hc : isSep c = true := h
    by_cases hb : buf = []
    · subst hb
      exact appendPath_nil_buf _
    · cases he : endsInSep buf with
      | true => exact appendPath_endsSep _ _ he
      | false => exact appendPath_sep_collapsed buf c rest hb he hc

/-- C2 witness: the amended theorem applied to buffer `"/a/"` and segment
`"/b"`. -/
theorem c2_witness :
    appendPath ['/', 'a', '/'] ['/', 'b'] = ['/', 'a', '/'] ++ ['/', 'b'] :=
  c2_amended ['/', 'a', '/'] ['/', 'b'] (by decide)

/-- C3: evaluation of the code at the failing input. The paths `"a/b"` and
`"a//b"` are equal (`compare == 0`, element-wise), yet the POSIX branch of
`hash_value` hashes the raw native bytes and gives them different hashes,
violating the claimed hash/equality consistency. -/
theorem c3_bug_eval :
    pathCompare ['a', '/', 'b'] ['a', '/', '/', 'b'] = Ordering.eq ∧
    hash_value_posix ['a', '/', 'b'] ≠ hash_value_posix ['a', '/', '/', 'b'] := by
  constructor
  · decide
  · decide

/-- C4: the append operation inserts no separator when the buffer is empty,
when the buffer already ends in a separator, or when the segment is empty
(an empty-segment append leaves the path unchanged); otherwise it inserts
exactly one preferred separator between the contents and the segment, and
when the segment itself begins with a separator the inserted separator is
collapsed so that no duplicate appears at the join point. -/
theorem c4_append_separator_rules (buf seg : List Char) :
    (buf = [] → appendPath buf seg = buf ++ seg) ∧
    (endsInSep buf = true → appendPath buf seg = buf ++ seg) ∧
    (seg = [] → appendPath buf seg = buf) ∧
    (buf ≠ [] → endsInSep buf = false → seg ≠ [] → startsWithSep seg = false →
      appendPath buf seg = buf ++ preferredSeparator :: seg) ∧
    (buf ≠ [] → endsInSep buf = false → startsWithSep seg = true →
      appendPath buf seg = buf ++ seg) := by
  refine ⟨?_, ?_, ?_, ?_, ?_⟩
  · rintro rfl
    exact appendPath_nil_buf _
  · intro h
    exact appendPath_endsSep _ _ h
  · rintro rfl
    exact appendPath_nil_seg _
  · intro hb he hs hsep
    cases seg with
    | nil => exact absurd rfl hs
    | cons c rest =>
      have hc : isSep c = false := hsep
      exact appendPath_sep_inserted buf c rest hb he hc
  · intro hb he hsep
    cases seg with
    | nil => simp [startsWithSep] at hsep
    | cons c rest =>
      have hc : isSep c = true := hsep
      exact appendPath_sep_collapsed buf c rest hb he hc

/-- C4 witness: appending `"b"` to `"a"` inserts exactly one preferred
separator. -/
theorem c4_witness : appendPath ['a'] ['b'] = ['a'] ++ preferredSeparator :: ['b'] :=
  (c4_append_separator_rules ['a'] ['b']).2.2.2.1 (by decide) (by decide)
    (by decide) (by decide)

/-- C5: `is_absolute` holds on Windows exactly when both root-name and
root-directory are non-empty, and on POSIX exactly when the root-directory is
non-empty; `is_relative` is the exact negation of `is_absolute` on both
platforms. -/
theorem c5_is_absolute (p : List Char) :
    (is_absolute_windows p = true ↔ (rootNameW p ≠ [] ∧ rootDirectoryW p ≠ [])) ∧
    (is_absolute_posix p = true ↔ rootDirectory p ≠ []) ∧
    is_relative_windows p = !is_absolute_windows p ∧
    is_relative_posix p = !is_absolute_posix p := by
  refine ⟨?_, ?_, rfl, rfl⟩
  · simp [is_absolute_windows, has_root_nameW, has_root_directoryW]
  · simp [is_absolute_posix, has_root_directory]

/-- C6: for every path the native string of `stem()` concatenated with the
native string of `extension()` equals the native string of `filename()`;
the names `"."`, `".."` and `".hidden"` have empty extension and their stem
equals the whole filename. -/
theorem c6_stem_extension :
    (∀ p : List Char, stem p ++ extension p = filename p) ∧
    extension ['.'] = [] ∧ stem ['.'] = filename ['.'] ∧
    extension ['.', '.'] = [] ∧ stem ['.', '.'] = filename ['.', '.'] ∧
    extension ['.', 'h', 'i', 'd', 'd', 'e', 'n'] = [] ∧
    stem ['.', 'h', 'i', 'd', 'd', 'e', 'n']
      = filename ['.', 'h', 'i', 'd', 'd', 'e', 'n'] := by
  refine ⟨?_, by decide, by decide, by decide, by decide, by decide, by decide⟩
  intro p
  exact stemOfName_append_extensionOfName (filename p)

/-- C7: for every path, concatenating the native string of `root_path()`
with the native string of `relative_path()` yields a path equal to the
original (`compare == 0`, element-wise — not byte identity), including when
the native buffer contains a run of more than one separator after the
root-name (the root-directory is stored as exactly one canonical separator
but compares only by presence). -/
theorem c7_root_path_reconstruction (p : List Char) :
    pathCompare (rootPath p ++ relativePart p) p = Ordering.eq := by
  obtain ⟨h1, h2, h3⟩ := reconstruct_parse p
  have hrel : relElements (rootPath p ++ relativePart p) = relElements p := by
    simp [relElements, relComponents, h3]
  unfold pathCompare
  rw [h1, h2, hrel, cmpChars_refl, cmpPresence_refl, cmpElems_refl]
  rfl

/-- C8: iteration yields the root-name if non-empty, the root-directory as a
single separator element if non-empty, then the relative components with
empty components skipped and a final synthetic `"."` element when the
relative path ends in a separator; concretely `"/a/b/"` iterates as
`["/", "a", "b", "."]` and `"/usr/local/bin"` as `["/", "usr", "local",
"bin"]`. -/
theorem c8_iterator_elements :
    pathElements ['/', 'a', '/', 'b', '/'] = [['/'], ['a'], ['b'], ['.']] ∧
    pathElements ['/', 'u', 's', 'r', '/', 'l', 'o', 'c', 'a', 'l', '/', 'b', 'i', 'n']
      = [['/'], ['u', 's', 'r'], ['l', 'o', 'c', 'a', 'l'], ['b', 'i', 'n']] ∧
    (∀ (p : List Char) (x : List Char), x ∈ relComponents p → x ≠ []) ∧
    (∀ p : List Char, relativePart p ≠ [] → endsInSep (relativePart p) = true →
      ∃ l, relElements p = l ++ [['.']]) := by
  refine ⟨by decide, by decide, ?_, ?_⟩
  · intro p x hx
    unfold relComponents at hx
    rw [List.mem_filter] at hx
    intro hxe
    subst hxe
    simp at hx
  · intro p h1 h2
    refine ⟨relComponents p, ?_⟩
    unfold relElements
    rw [isEmpty_false_of_ne_nil h1, h2]
    simp

/-- C8 witness: the trailing-separator clause applied to the path `"/a/"`. -/
theorem c8_witness : ∃ l, relElements ['/', 'a', '/'] = l ++ [['.']] :=
  c8_iterator_elements.2.2.2 ['/', 'a', '/'] (by decide) (by decide)

/-- C9: on Windows `hash_value` traverses `c_str()` only up to the first NUL,
so buffers agreeing up to the first embedded NUL hash alike even if they
differ after it; on POSIX `hash_value` covers every character, so two buffers
that agree up to an embedded NUL but differ after it hash differently. -/
theorem c9_hash_null_handling :
    (∀ p q : List Char,
      p.takeWhile (fun c => c != nullChar) = q.takeWhile (fun c => c != nullChar) →
      hash_value_windows p = hash_value_windows q) ∧
    List.takeWhile (fun c => c != nullChar) ['a', nullChar, 'b']
      = List.takeWhile (fun c => c != nullChar) ['a', nullChar, 'c'] ∧
    hash_value_posix ['a', nullChar, 'b'] ≠ hash_value_posix ['a', nullChar, 'c'] ∧
    hash_value_windows ['a', nullChar, 'b'] = hash_value_windows ['a', nullChar, 'c'] := by
  refine ⟨?_, by decide, by decide, by decide⟩
  intro p q h
  unfold hash_value_windows
  rw [h]

/-- C9 witness: the universal clause applied to two concrete buffers that
agree up to their embedded NUL. -/
theorem c9_witness :
    hash_value_windows ['a', nullChar, 'b'] = hash_value_windows ['a', nullChar, 'd'] :=
  c9_hash_null_handling.1 ['a', nullChar, 'b'] ['a', nullChar, 'd'] (by decide)

/-- C10: `iterator::equal` compares the owning path's identity in addition to
the position, so two iterators are equal only if they refer to the same path
object at the same offset, and `begin()` iterators of two distinct path
objects are never equal even when the two native buffers are identical. -/
theorem c10_iterator_identity :
    (∀ i j : PathIter, iterEqual i j = true ↔ (i.pathPtr = j.pathPtr ∧ i.pos = j.pos)) ∧
    (∀ o₁ o₂ : PathObj, o₁.buf = o₂.buf → o₁.oid ≠ o₂.oid →
      iterEqual (beginIter o₁) (beginIter o₂) = false) := by
  constructor
  · intro i j
    simp [iterEqual]
  · intro o₁ o₂ hbuf hoid
    simp [iterEqual, beginIter]
    exact hoid

/-- C10 witness: two distinct path objects with identical buffers have
unequal `begin()` iterators. -/
theorem c10_witness :
    iterEqual (beginIter ⟨0, ['a', 'b']⟩) (beginIter ⟨1, ['a', 'b']⟩) = false :=
  c10_iterator_identity.2 ⟨0, ['a', 'b']⟩ ⟨1, ['a', 'b']⟩ rfl (by decide)

end BoostPath
